import Mathlib

/-!
Verification of the indentation-consistency engine of `src/lib/rules/align/indent.js`.

The parse tree produced by the external parser is modelled as an arena of
nodes (`Arena`): each node records its parent index, the ordered list of its
children's indices, the line/column of its starting token, the line of its
stopping token, its constructor (kind) name, its text, and whether it is a
terminal (carries a `.symbol` in the JavaScript source).  The mutable
`indentError` annotation written onto tree nodes by the validators is
modelled as an association list from node index to the recorded
`(indent, correctIndent)` pair; a write prepends a pair and a read takes the
first binding, which matches JavaScript property assignment and lookup.
-/
/-- Recorded indent correction, mirroring the object
`{indent: observedColumn, correctIndent: expectedColumn}` attached as
`node.indentError` by the validators. -/
structure IndentError where
  indent : Int
  correctIndent : Int
deriving DecidableEq

/-- One parse-tree node of the arena.  `line`/`col` are the position of the
node's starting token (`ctx.start` for rule nodes, `symbol` for terminals);
`stopLn` is the line of its stopping token; `ctorName` is the JavaScript
`constructor.name` tag; `text` is `getText()`; `term` records whether the
node is a terminal (`curItem.symbol` is truthy). -/
structure PNode where
  parent : Option Nat
  children : List Nat
  line : Nat
  col : Int
  stopLn : Nat
  ctorName : String
  text : String
  term : Bool
deriving DecidableEq, Inhabited

/-- A parse tree as an arena of nodes addressed by index. -/
structure Arena where
  nodes : List PNode
deriving DecidableEq

def Arena.size (a : Arena) : Nat := a.nodes.length

def Arena.get (a : Arena) (i : Nat) : PNode := a.nodes.getD i default

/-- Modelled from the spec: `lineOf` from `src/lib/common/tokens.js` is not
under `src/`; per §6 a node exposes a starting token with a 1-based line, so
`lineOf` returns the node's starting line. -/
def lineOf (a : Arena) (i : Nat) : Nat := (a.get i).line

/-- Modelled from the spec: `columnOf` from `src/lib/common/tokens.js` is not
under `src/`; per §6 a node exposes a starting token with a 0-based column,
so `columnOf` returns the node's starting column. -/
def columnOf (a : Arena) (i : Nat) : Int := (a.get i).col

/-- Modelled from the spec: `stopLine` from `src/lib/common/tokens.js` is not
under `src/`; per §4.2 it is the line on which a node's span ends. -/
def stopLine (a : Arena) (i : Nat) : Nat := (a.get i).stopLn

/-- Read the `indentError` annotation of node `i` (first binding wins). -/
def lookupCorr (corr : List (Nat × IndentError)) (i : Nat) : Option IndentError :=
  (corr.find? (fun p => p.1 == i)).map (·.2)

/-- Embedding of `correctIndent(curIndent, indentError)`:
`curIndent - indentError.indent + indentError.correctIndent`. -/
def correctIndent (curIndent : Int) (e : IndentError) : Int :=
  curIndent - e.indent + e.correctIndent

/-- Embedding of the do/while loop of `correctIndentOf(ctx)`.  `ln` and
`colI` are `lineOf(ctx)` and `columnOf(ctx)` of the original node; `cur` is
the node currently examined.  The loop body first consults the current
node's `indentError`; the loop condition then moves to the parent provided
it exists and starts on the original node's line.  The recursion is bounded
by an explicit fuel (the JavaScript loop is bounded by tree depth, which the
termination theorem establishes). -/
def correctIndentOfGo (a : Arena) (corr : List (Nat × IndentError))
    (ln : Nat) (colI : Int) : Nat → Nat → Option Int
  | 0, _ => none
  | fuel + 1, cur =>
    match lookupCorr corr cur with
    | some e => some (correctIndent colI e)
    | none =>
      match (a.get cur).parent with
      | none => some colI
      | some p =>
        if lineOf a p = ln then correctIndentOfGo a corr ln colI fuel p
        else some colI

/-- Embedding of `correctIndentOf(ctx)` with canonical fuel `size + 1`,
sufficient for every well-formed tree. -/
def correctIndentOf (a : Arena) (corr : List (Nat × IndentError)) (i : Nat) : Int :=
  (correctIndentOfGo a corr (lineOf a i) (columnOf a i) (a.size + 1) i).getD (columnOf a i)

/-- Declarative description following the spec's words (§4.2): the chain of
nodes consulted by the resolver; the node itself first, then ancestors while
they start on the original node's source line `ln`. -/
def sameLineChain (a : Arena) (ln : Nat) : Nat → Nat → List Nat
  | 0, _ => []
  | fuel + 1, cur =>
    cur ::
      match (a.get cur).parent with
      | none => []
      | some p => if lineOf a p = ln then sameLineChain a ln fuel p else []

/-- Declarative resolver following the spec's words: at the first chain node
carrying a recorded correction return
`observedColumn - recordedObservedColumn + recordedExpectedColumn`, else the
node's own observed column. -/
def resolverSpec (a : Arena) (corr : List (Nat × IndentError)) (i : Nat) : Int :=
  match (sameLineChain a (lineOf a i) (a.size + 1) i).findSome? (fun c => lookupCorr corr c) with
  | some e => columnOf a i - e.indent + e.correctIndent
  | none => columnOf a i

/-- Embedding of `firstNodeOfLine`'s initial while loop: walk up while the
parent exists, starts on the same line as the current node, and is not the
`SourceUnitContext`, with explicit fuel. -/
def rootOfLineGo (a : Arena) : Nat → Nat → Option Nat
  | 0, _ => none
  | fuel + 1, cur =>
    match (a.get cur).parent with
    | none => some cur
    | some p =>
      if (a.get cur).line = (a.get p).line ∧ (a.get p).ctorName ≠ "SourceUnitContext" then
        rootOfLineGo a fuel p
      else some cur

/-- Embedding of `firstNodeOfLine`'s backward sibling scan: among the
parent's children strictly before `root`, the downward `for` loop's last
assignment is the earliest sibling whose span stops on `root`'s line; absent
a parent, an index for `root`, or such a sibling, the result is `root`
itself. -/
def scanPrevSibling (a : Arena) (root : Nat) : Nat :=
  match (a.get root).parent with
  | none => root
  | some par =>
    let cs := (a.get par).children
    match cs.findIdx? (· == root) with
    | none => root
    | some ri =>
      match (cs.take ri).find? (fun c => stopLine a c == lineOf a root) with
      | some c => c
      | none => root

/-- Embedding of the recursive `firstNodeOfLine(ctx)` with explicit fuel for
the outer recursion (the inner walk-up uses fuel `size + 1`). -/
def firstNodeOfLineF (a : Arena) : Nat → Nat → Option Nat
  | 0, _ => none
  | fuel + 1, i =>
    match rootOfLineGo a (a.size + 1) i with
    | none => none
    | some root =>
      let res := scanPrevSibling a root
      if lineOf a i ≠ lineOf a res then firstNodeOfLineF a fuel res
      else some res

/-- Embedding of `firstNodeOfLine(ctx)` with canonical fuel `lineOf + 1`,
sufficient for every well-formed tree. -/
def firstNodeOfLine (a : Arena) (i : Nat) : Nat :=
  (firstNodeOfLineF a (lineOf a i + 1) i).getD i

/-- A reported diagnostic, as handed to `reporter.errorAt`. -/
structure Report where
  line : Nat
  col : Int
  ruleId : String
  message : String
deriving DecidableEq

/-- State threaded through one checking traversal: the two validators'
`linesWithError` lists, the reported diagnostics, and the `indentError`
annotations attached to nodes so far. -/
structure RState where
  blockLines : List Nat
  singleLines : List Nat
  reports : List Report
  corr : List (Nat × IndentError)
deriving DecidableEq

def initState : RState := ⟨[], [], [], []⟩

/-- The diagnostic built by `makeReportCorrectLine`. -/
def mkReport (line : Nat) (col : Int) (u : String) (ci : Int) : Report :=
  ⟨line, col, "indent", s!"Expected indentation of {ci} {u} but found {col}"⟩

/-- Embedding of `makeReportCorrectLine` on the block validator instance. -/
def blockReport (u : String) (line : Nat) (col ci : Int) (s : RState) : RState :=
  { s with blockLines := s.blockLines ++ [line],
           reports := s.reports ++ [mkReport line col u ci] }

/-- Embedding of `makeReportCorrectLine` on the single-line validator
instance. -/
def singleReport (u : String) (line : Nat) (col ci : Int) (s : RState) : RState :=
  { s with singleLines := s.singleLines ++ [line],
           reports := s.reports ++ [mkReport line col u ci] }

/-- Texts of the direct children of node `i` (`children.map(i => i.getText())`). -/
def childTexts (a : Arena) (i : Nat) : List String :=
  (a.get i).children.map (fun c => (a.get c).text)

/-- Embedding of `Block._startBracketIndex`: index of the first direct child
whose text is an opening brace (`none` models JavaScript's `-1`). -/
def startBracketIndex (a : Arena) (i : Nat) : Option Nat :=
  (childTexts a i).findIdx? (· == "\x7b")

/-- Embedding of `Block.hasStartBracket`. -/
def hasStartBracket (a : Arena) (i : Nat) : Bool :=
  (startBracketIndex a i).isSome

/-- Embedding of `Block.startBracket` (meaningful when a start bracket exists). -/
def startBracket (a : Arena) (i : Nat) : Nat :=
  (a.get i).children.getD ((startBracketIndex a i).getD 0) 0

/-- Embedding of `Block.startBracketLine` (`startBracket().symbol.line`). -/
def startBracketLine (a : Arena) (i : Nat) : Nat :=
  lineOf a (startBracket a i)

/-- Embedding of `Block._endBracketIndex`: index of the first direct child
whose text is a closing brace. -/
def endBracketIndex (a : Arena) (i : Nat) : Option Nat :=
  (childTexts a i).findIdx? (· == "\x7d")

/-- Embedding of `Block.endBracket`: the LAST direct child
(`children[children.length - 1]`), regardless of its text. -/
def endBracket (a : Arena) (i : Nat) : Nat :=
  let cs := (a.get i).children
  cs.getD (cs.length - 1) 0

/-- Embedding of `Block.endBracketLine` (`endBracket().symbol.line`). -/
def endBracketLine (a : Arena) (i : Nat) : Nat :=
  lineOf a (endBracket a i)

/-- Embedding of `Block.endBracketColumn`. -/
def endBracketColumn (a : Arena) (i : Nat) : Int :=
  columnOf a (endBracket a i)

/-- Embedding of `Block.isBracketsOnSameLine`. -/
def isBracketsOnSameLine (a : Arena) (i : Nat) : Bool :=
  startBracketLine a i == endBracketLine a i

/-- Child positions iterated by `Block.forEachNestedNode`: strictly between
the start-bracket index and the first `'}'` index (both `-1` when absent,
mirrored by mapping the found index through `Int`). -/
def nestedIdxs (a : Arena) (i : Nat) : List Nat :=
  let sbi : Int := match startBracketIndex a i with | some k => (k : Int) | none => -1
  let ebi : Int := match endBracketIndex a i with | some k => (k : Int) | none => -1
  (List.range (a.get i).children.length).filter (fun j => sbi < (j : Int) ∧ (j : Int) < ebi)

/-- The nodes `forEachNestedNode` invokes its callback on: children in the
nested range whose `symbol` is absent (non-terminals). -/
def nestedTargets (a : Arena) (i : Nat) : List Nat :=
  ((nestedIdxs a i).map (fun j => (a.get i).children.getD j 0)).filter
    (fun c => !(a.get c).term)

/-- Embedding of `BlockValidator.validateNode(requiredIndent)` applied to one
node: on a column mismatch, report, record the line, and attach the
`indentError` correction. -/
def validateNode (a : Arena) (u : String) (req : Int) (c : Nat) (s : RState) : RState :=
  if columnOf a c ≠ req then
    let s1 := blockReport u (lineOf a c) (columnOf a c) req s
    { s1 with corr := (c, ⟨columnOf a c, req⟩) :: s1.corr }
  else s

/-- Embedding of `BlockValidator.validateIndentOfNestedElements`: the
required indent is resolved once, before iterating. -/
def validateNested (a : Arena) (u : String) (ind : Int) (i : Nat) (s : RState) : RState :=
  let req := correctIndentOf a s.corr (firstNodeOfLine a i) + ind
  (nestedTargets a i).foldl (fun st c => validateNode a u req c st) s

/-- Embedding of `BlockValidator.validateEndBracketIndent`. -/
def validateEndBracketIndent (a : Arena) (u : String) (i : Nat) (s : RState) : RState :=
  let ebci := correctIndentOf a s.corr (firstNodeOfLine a i)
  if ebci ≠ endBracketColumn a i then
    blockReport u (endBracketLine a i) (endBracketColumn a i) ebci s
  else s

/-- Embedding of `BlockValidator.validateBlock`. -/
def validateBlock (a : Arena) (u : String) (ind : Int) (i : Nat) (s : RState) : RState :=
  if !hasStartBracket a i || isBracketsOnSameLine a i then s
  else validateEndBracketIndent a u i (validateNested a u ind i s)

/-- The constructor names whose statements the single-line validator skips. -/
def skipKinds : List String := ["BlockContext", "IfStatementContext"]

/-- Embedding of `NestedSingleLineValidator.validate(ctx, index)`.  The
JavaScript dereferences `ctx.parentCtx` and `statement.children[0]`
unconditionally; the model reads them through defaults, and the theorems
about this function supply the corresponding existence hypotheses. -/
def nslValidate (a : Arena) (u : String) (ind : Int) (i : Nat) (idx : Nat) (s : RState) : RState :=
  let cs := (a.get i).children
  if cs.length ≤ idx then s
  else
    let stmt := cs.getD idx 0
    let stCol := columnOf a stmt
    let stLine := lineOf a stmt
    let pIdx := (a.get i).parent.getD 0
    let req := correctIndentOf a s.corr pIdx + ind
    let fc := (a.get stmt).children.getD 0 0
    if (a.get fc).ctorName ∉ skipKinds ∧ stCol ≠ req ∧ stLine ≠ (a.get i).line then
      let s1 := singleReport u stLine stCol req s
      { s1 with corr := (stmt, ⟨stCol, correctIndentOf a s1.corr pIdx + ind⟩) :: s1.corr }
    else s

/-- Embedding of `NestedSingleLineValidator.validateMultiple`. -/
def nslValidateMultiple (a : Arena) (u : String) (ind : Int) (i : Nat)
    (idxs : List Nat) (s : RState) : RState :=
  idxs.foldl (fun st k => nslValidate a u ind i k st) s

/-- Embedding of `IndentChecker.enterSourceUnit`: every child other than the
end-of-file marker is checked against required indent 0. -/
def enterSourceUnitH (a : Arena) (u : String) (i : Nat) (s : RState) : RState :=
  (((a.get i).children.filter (fun c => (a.get c).text ≠ "<EOF>"))).foldl
    (fun st c => validateNode a u 0 c st) s

/-- The context kinds routed to `BlockValidator.validateBlock` by the
checker's enter hooks. -/
def blockKinds : List String :=
  ["BlockContext", "ContractDefinitionContext", "StructDefinitionContext",
   "EnumDefinitionContext", "ImportDirectiveContext", "FunctionCallArgumentsContext"]

/-- The enter hook fired when the traversal reaches node `i`, dispatching on
the node's kind exactly as the `IndentChecker` listener methods do
(`if`: slots 4 and 6; `while`: 4; `do-while`: 1; `for`: last child). -/
def enterNode (a : Arena) (u : String) (ind : Int) (i : Nat) (s : RState) : RState :=
  let k := (a.get i).ctorName
  if k ∈ blockKinds then validateBlock a u ind i s
  else if k = "IfStatementContext" then nslValidateMultiple a u ind i [4, 6] s
  else if k = "WhileStatementContext" then nslValidate a u ind i 4 s
  else if k = "DoWhileStatementContext" then nslValidate a u ind i 1 s
  else if k = "ForStatementContext" then nslValidate a u ind i ((a.get i).children.length - 1) s
  else if k = "SourceUnitContext" then enterSourceUnitH a u i s
  else s

/-- One checking traversal: the external walker enters each tree node once,
in `order`, firing the checker's enter hooks. -/
def runTraversal (a : Arena) (u : String) (ind : Int) (order : List Nat) : RState :=
  order.foldl (fun s n => enterNode a u ind n s) initState

/-- Embedding of `IndentChecker.getLinesWithError`: the single-line
validator's lines concatenated with the block validator's lines. -/
def getLinesWithError (s : RState) : List Nat :=
  s.singleLines ++ s.blockLines

/-- A JavaScript configuration value as far as `parseConfig` inspects it:
a string, a number (`_.isNumber`), or anything else. -/
inductive JVal where
  | str (s : String)
  | num (n : Int)
  | other
deriving DecidableEq

/-- The `rules` object of a configuration: its `indent` entry is either
absent or a list of values. -/
structure ConfigRules where
  indent : Option (List JVal)

/-- A configuration object: its `rules` field may be absent. -/
structure Config where
  rules : Option ConfigRules

/-- Result of `IndentChecker.parseConfig`: the `{}`, `{indent, unit}` shapes
are modelled with optional fields. -/
structure ParsedIndent where
  indent : Option Int
  unit : Option String
deriving DecidableEq

/-- Embedding of `IndentChecker.parseConfig`. -/
def parseConfig (c : Config) : ParsedIndent :=
  match c.rules with
  | none => ⟨none, none⟩
  | some rs =>
    match rs.indent with
    | none => ⟨none, none⟩
    | some l =>
      if l.length = 2 then
        match l.getD 1 .other with
        | .str s => if s = "tabs" then ⟨some 1, some "tabs"⟩ else ⟨none, none⟩
        | .num n => ⟨some n, some "spaces"⟩
        | .other => ⟨none, none⟩
      else ⟨none, none⟩

/-- The indent unit size the checker's constructor ends up with:
`this.parseConfig(config).indent || 4` (JavaScript `||` treats 0 as falsy). -/
def effectiveIndent (c : Config) : Int :=
  match (parseConfig c).indent with
  | some n => if n = 0 then 4 else n
  | none => 4

/-- The indent unit name the checker's constructor ends up with:
`this.parseConfig(config).unit || 'spaces'`. -/
def effectiveUnit (c : Config) : String :=
  match (parseConfig c).unit with
  | some u => if u = "" then "spaces" else u
  | none => "spaces"

/-- A lexer token: line, column, channel (0 = significant code) and type
code (negative for the end-of-file marker). -/
structure Token where
  line : Nat
  column : Int
  channel : Nat
  ttype : Int
deriving DecidableEq

/-- The tokens the base multiplicity validator looks at:
`tokens.filter(i => i.channel === 0 && i.type >= 0)`. -/
def sigTokens (ts : List Token) : List Token :=
  ts.filter (fun t => t.channel = 0 ∧ t.ttype ≥ 0)

/-- Embedding of `BaseIndentMultiplicityValidator.applyTokenIndent`: update
the line-indent map when the line is unseen or the token is further left. -/
def applyTokenIndent (m : Nat → Option Int) (t : Token) : Nat → Option Int :=
  match m t.line with
  | none => fun l => if l = t.line then some t.column else m l
  | some c =>
    if c > t.column then (fun l => if l = t.line then some t.column else m l) else m

/-- The line-indent map (`this.firstIndent`) after feeding every significant
token through `applyTokenIndent`. -/
def firstIndent (ts : List Token) : Nat → Option Int :=
  (sigTokens ts).foldl applyTokenIndent (fun _ => none)

/-- The body of the reporting loop of
`BaseIndentMultiplicityValidator.validate` for one line of the map: skip
lines already in `linesWithError`, and report when the recorded column is
not a multiple of the indent (`isNotValidForBaseIndent` / `error`). -/
def baseLineCheck (ind : Int) (lwe : List Nat) (m : Nat → Option Int) (l : Nat) :
    Option Report :=
  if l ∈ lwe then none
  else
    match m l with
    | some c =>
      if c % ind ≠ 0 then some ⟨l, c, "indent", "Indentation is incorrect"⟩ else none
    | none => none

/-- Embedding of the reporting loop of
`BaseIndentMultiplicityValidator.validate`: the loop body runs for each line
of the map, i.e. each line of a significant token.  The JavaScript `for..in`
enumeration order only permutes the report list; the theorems speak of
membership. -/
def baseValidate (ind : Int) (lwe : List Nat) (ts : List Token) : List Report :=
  (((sigTokens ts).map Token.line).dedup).filterMap (baseLineCheck ind lwe (firstIndent ts))

/-- Witness for C10 at a concrete arena: a two-node tree whose child carries
the correction `(4, 8)` at its actual column 4; the resolver returns 8. -/
def c10arena : Arena :=
  ⟨[⟨none, [1], 1, 0, 2, "SourceUnitContext", "", false⟩,
    ⟨some 0, [], 1, 4, 1, "ExpressionStatementContext", "x;", false⟩]⟩

/-- A concrete arena used by several witnesses, for the source

```
contract-free sketch:
1|  {        ← block node 1 (children `{`, statement, `}`)
2|      x;   ← nested statement at column 6
3|  }
4|  if (c)
5|         y;  ← unbraced controlled statement at column 7
```

Node 0 is the source unit; node 5 the if statement; node 10 its statement
slot (child position 4) whose first child is node 11. -/
def egArena : Arena :=
  ⟨[⟨none, [1, 5], 1, 0, 5, "SourceUnitContext", "", false⟩,
    ⟨some 0, [2, 3, 4], 1, 0, 3, "BlockContext", "\x7bx;\x7d", false⟩,
    ⟨some 1, [], 1, 9, 1, "TerminalNodeImpl", "\x7b", true⟩,
    ⟨some 1, [], 2, 6, 2, "ExpressionStatementContext", "x;", false⟩,
    ⟨some 1, [], 3, 0, 3, "TerminalNodeImpl", "\x7d", true⟩,
    ⟨some 0, [6, 7, 8, 9, 10], 4, 0, 5, "IfStatementContext", "if(c)y;", false⟩,
    ⟨some 5, [], 4, 0, 4, "TerminalNodeImpl", "if", true⟩,
    ⟨some 5, [], 4, 3, 4, "TerminalNodeImpl", "(", true⟩,
    ⟨some 5, [], 4, 4, 4, "ExpressionContext", "c", false⟩,
    ⟨some 5, [], 4, 5, 4, "TerminalNodeImpl", ")", true⟩,
    ⟨some 5, [11], 5, 7, 5, "StatementContext", "y;", false⟩,
    ⟨some 10, [], 5, 7, 5, "ExpressionStatementContext", "y;", false⟩]⟩

/-- Arena exhibiting the two distinct notions of closing brace: node 0 has
children `{`, `}`, `;`, so the last child (used for the same-line check and
the closing-brace indent check) is the `;` terminal, while the first child
with text `}` sits at index 1. -/
def c9arena : Arena :=
  ⟨[⟨none, [1, 2, 3], 1, 0, 1, "FunctionCallArgumentsContext", "\x7b\x7d,;", false⟩,
    ⟨some 0, [], 1, 0, 1, "TerminalNodeImpl", "\x7b", true⟩,
    ⟨some 0, [], 1, 2, 1, "TerminalNodeImpl", "\x7d", true⟩,
    ⟨some 0, [], 1, 4, 1, "TerminalNodeImpl", ";", true⟩]⟩

/-- The update `applyTokenIndent` performs on one entry of the map: keep the
smaller column, populate an unseen line. -/
def minUpd (o : Option Int) (c : Int) : Option Int :=
  match o with
  | none => some c
  | some x => if x > c then some c else some x

/-- Tokens of a two-line snippet whose second line starts at column 5:
line 1 at column 0, line 2 with tokens at columns 9 and 5. -/
def c4tokens : List Token := [⟨1, 0, 0, 5⟩, ⟨2, 9, 0, 6⟩, ⟨2, 5, 0, 7⟩]

/-- Well-formedness of the arena as a tree: every parent link points to an
earlier node (as in a preorder numbering), so ancestor walks strictly
descend. -/
def wfParents (a : Arena) : Bool :=
  (List.range a.size).all fun i =>
    match (a.get i).parent with
    | some p => decide (p < i)
    | none => true

/-- Well-formedness: every child link stays inside the arena. -/
def wfChildren (a : Arena) : Bool :=
  (List.range a.size).all fun i => (a.get i).children.all fun c => decide (c < a.size)

/-- Well-formedness: the children of a node appear in source order, so their
starting lines are monotone. -/
def wfSiblings (a : Arena) : Bool :=
  (List.range a.size).all fun i =>
    decide (((a.get i).children).Pairwise fun x y => (a.get x).line ≤ (a.get y).line)

/-- Well-formedness: no node is listed as a child twice, whether under one
parent or under two different parents. -/
def wfChildDisjoint (a : Arena) : Bool :=
  decide (((List.range a.size).flatMap fun i => (a.get i).children).Nodup)

lemma correctIndentOfGo_eq_chain (a : Arena) (corr : List (Nat × IndentError))
    (ln : Nat) (colI : Int) :
    ∀ (fuel cur : Nat),
      (correctIndentOfGo a corr ln colI fuel cur).getD colI =
        match (sameLineChain a ln fuel cur).findSome? (fun c => lookupCorr corr c) with
        | some e => correctIndent colI e
        | none => colI := by
  intro fuel
  induction fuel with
  | zero => intro cur; simp [correctIndentOfGo, sameLineChain]
  | succ n ih =>
    intro cur
    simp only [correctIndentOfGo, sameLineChain, List.findSome?_cons]
    cases h : lookupCorr corr cur with
    | some e => simp
    | none =>
      simp only
      cases hp : (a.get cur).parent with
      | none => simp [List.findSome?]
      | some p =>
        by_cases hl : lineOf a p = ln
        · simp only [hl, if_true]
          exact ih p
        · simp [hl, List.findSome?]

/-- C1: the Correct-Indent Resolver returns
`observedColumn - recordedObservedColumn + recordedExpectedColumn` computed
at the first walk node (the node itself, then ancestors staying on the
node's own source line) that carries a recorded correction, and returns the
node's own observed column unchanged when no walk node carries a
correction, the walk stopping at an ancestor on a different line or with no
parent.  Stated as: the implementation coincides with the declarative
resolver built from the spec's words. -/
theorem correctIndentOf_eq_resolverSpec (a : Arena) (corr : List (Nat × IndentError)) (i : Nat) :
    correctIndentOf a corr i = resolverSpec a corr i := by
  unfold correctIndentOf resolverSpec
  have h := correctIndentOfGo_eq_chain a corr (lineOf a i) (columnOf a i) (a.size + 1) i
  rw [h]
  rfl

/-- C10: a node that itself carries a correction is consulted before any
ancestor: the resolver returns its observed column reprojected through its
own recorded delta, which equals the recorded expected column whenever the
recorded observed column is the node's actual column (as is the case for
every correction the validators attach). -/
theorem correctIndentOf_self_correction (a : Arena) (corr : List (Nat × IndentError))
    (i : Nat) (e : IndentError) (h : lookupCorr corr i = some e) :
    correctIndentOf a corr i = columnOf a i - e.indent + e.correctIndent ∧
      (e.indent = columnOf a i → correctIndentOf a corr i = e.correctIndent) := by
  have hgo : correctIndentOf a corr i = columnOf a i - e.indent + e.correctIndent := by
    unfold correctIndentOf
    show (correctIndentOfGo a corr (lineOf a i) (columnOf a i) (a.size + 1) i).getD _ = _
    simp [correctIndentOfGo, h, correctIndent]
  refine ⟨hgo, fun hc => ?_⟩
  rw [hgo, hc]
  omega

theorem correctIndentOf_self_correction_witness :
    lookupCorr [(1, ⟨4, 8⟩)] 1 = some ⟨4, 8⟩ ∧
      correctIndentOf c10arena [(1, ⟨4, 8⟩)] 1 = columnOf c10arena 1 - (4 : Int) + 8 ∧
      ((4 : Int) = columnOf c10arena 1 → correctIndentOf c10arena [(1, ⟨4, 8⟩)] 1 = 8) := by
  refine ⟨by decide, ?_⟩
  exact correctIndentOf_self_correction c10arena [(1, ⟨4, 8⟩)] 1 ⟨4, 8⟩ (by decide)

/-- C2: for a block with an opening brace whose braces are not on one line,
the closing brace is checked against
`correctIndentOf (firstNodeOfLine blockNode)` with no indent unit added; on
a mismatch a diagnostic is appended at the closing brace's line and column
and no node receives a correction from this step (the corrections are
exactly those left by the nested-element validation). -/
theorem validateBlock_endBracket (a : Arena) (u : String) (ind : Int) (i : Nat) (s : RState)
    (h1 : hasStartBracket a i = true) (h2 : isBracketsOnSameLine a i = false) :
    (validateBlock a u ind i s =
      (let s1 := validateNested a u ind i s
       let ebci := correctIndentOf a s1.corr (firstNodeOfLine a i)
       if ebci ≠ endBracketColumn a i then
         { s1 with blockLines := s1.blockLines ++ [endBracketLine a i],
                   reports := s1.reports ++
                     [mkReport (endBracketLine a i) (endBracketColumn a i) u ebci] }
       else s1)) ∧
      (validateBlock a u ind i s).corr = (validateNested a u ind i s).corr := by
  have hb : validateBlock a u ind i s =
      validateEndBracketIndent a u i (validateNested a u ind i s) := by
    unfold validateBlock
    rw [h1, h2]
    rfl
  constructor
  · rw [hb]
    unfold validateEndBracketIndent blockReport
    rfl
  · rw [hb]
    unfold validateEndBracketIndent blockReport
    dsimp only
    split <;> rfl

theorem validateBlock_endBracket_witness :
    hasStartBracket egArena 1 = true ∧ isBracketsOnSameLine egArena 1 = false ∧
      (validateBlock egArena "spaces" 4 1 initState).corr =
        (validateNested egArena "spaces" 4 1 initState).corr := by
  refine ⟨by decide, by decide, ?_⟩
  exact (validateBlock_endBracket egArena "spaces" 4 1 initState (by decide) (by decide)).2

/-- C5: a node with no direct `'{'` child, or whose opening brace and final
child share a line, is skipped entirely by the block validator: no reports,
no recorded lines, no corrections. -/
theorem validateBlock_skip (a : Arena) (u : String) (ind : Int) (i : Nat) (s : RState)
    (h : hasStartBracket a i = false ∨ isBracketsOnSameLine a i = true) :
    validateBlock a u ind i s = s := by
  unfold validateBlock
  rcases h with h | h <;> simp [h]

theorem validateBlock_skip_witness :
    hasStartBracket egArena 5 = false ∧
      validateBlock egArena "spaces" 4 5 initState = initState := by
  refine ⟨by decide, ?_⟩
  exact validateBlock_skip egArena "spaces" 4 5 initState (Or.inl (by decide))

/-- C3: the single-line statement validator does nothing when the child slot
is absent; otherwise (given the construct's parent and the statement's first
child, which the JavaScript dereferences unconditionally) it reports and
attaches a correction to the statement exactly when the first child is
neither a block nor an if chain, the statement's column differs from
`correctIndentOf parent + indent`, and the statement starts on a different
line than the construct's starting token. -/
theorem nslValidate_spec (a : Arena) (u : String) (ind : Int) (i idx : Nat) (s : RState) :
    ((a.get i).children.length ≤ idx → nslValidate a u ind i idx s = s) ∧
      (∀ p fc rest, (a.get i).parent = some p → idx < (a.get i).children.length →
        (a.get ((a.get i).children.getD idx 0)).children = fc :: rest →
        nslValidate a u ind i idx s =
          (let stmt := (a.get i).children.getD idx 0
           let req := correctIndentOf a s.corr p + ind
           if (a.get fc).ctorName ∉ skipKinds ∧ columnOf a stmt ≠ req ∧
               lineOf a stmt ≠ (a.get i).line then
             { s with singleLines := s.singleLines ++ [lineOf a stmt],
                      reports := s.reports ++
                        [mkReport (lineOf a stmt) (columnOf a stmt) u req],
                      corr := (stmt, ⟨columnOf a stmt, req⟩) :: s.corr }
           else s)) := by
  constructor
  · intro h
    unfold nslValidate
    simp [h]
  · intro p fc rest hp hlen hfc
    unfold nslValidate
    rw [if_neg (by omega), hp]
    simp only [Option.getD_some, hfc, List.getD_cons_zero]
    rfl

theorem nslValidate_spec_witness :
    (egArena.get 5).parent = some 0 ∧ 4 < (egArena.get 5).children.length ∧
      (egArena.get ((egArena.get 5).children.getD 4 0)).children = 11 :: [] ∧
      nslValidate egArena "spaces" 4 5 4 initState =
        (let stmt := (egArena.get 5).children.getD 4 0
         let req := correctIndentOf egArena initState.corr 0 + 4
         if (egArena.get 11).ctorName ∉ skipKinds ∧ columnOf egArena stmt ≠ req ∧
             lineOf egArena stmt ≠ (egArena.get 5).line then
           { initState with
               singleLines := initState.singleLines ++ [lineOf egArena stmt],
               reports := initState.reports ++
                 [mkReport (lineOf egArena stmt) (columnOf egArena stmt) "spaces" req],
               corr := (stmt, ⟨columnOf egArena stmt, req⟩) :: initState.corr }
         else initState) := by
  refine ⟨by decide, by decide, by decide, ?_⟩
  exact (nslValidate_spec egArena "spaces" 4 5 4 initState).2 0 11 []
    (by decide) (by decide) (by decide)

/-- C6: a configuration whose `rules.indent` second entry is the string
`"tabs"` yields effective unit size 1 and unit name `"tabs"`; any
configuration whose `rules`, `rules.indent`, two-element shape, or second
entry (neither `"tabs"` nor a number) is malformed or absent falls back to
4 spaces.  Both cases are total — parsing never fails. -/
theorem parseConfig_spec :
    (∀ (c : Config) (rs : ConfigRules) (x : JVal), c.rules = some rs →
      rs.indent = some [x, JVal.str "tabs"] →
      effectiveIndent c = 1 ∧ effectiveUnit c = "tabs") ∧
      (∀ c : Config,
        (∀ rs, c.rules = some rs → ∀ l, rs.indent = some l →
          l.length ≠ 2 ∨
            (l.getD 1 .other ≠ JVal.str "tabs" ∧ ∀ n, l.getD 1 .other ≠ JVal.num n)) →
        effectiveIndent c = 4 ∧ effectiveUnit c = "spaces") := by
  constructor
  · intro c rs x hr hi
    simp [effectiveIndent, effectiveUnit, parseConfig, hr, hi]
  · intro c h
    rcases hr : c.rules with _ | rs
    · simp [effectiveIndent, effectiveUnit, parseConfig, hr]
    · rcases hi : rs.indent with _ | l
      · simp [effectiveIndent, effectiveUnit, parseConfig, hr, hi]
      · by_cases hlen2 : l.length = 2
        · rcases h rs hr l hi with hlen | ⟨hs, hn⟩
          · exact absurd hlen2 hlen
          · simp only [effectiveIndent, effectiveUnit, parseConfig, hr, hi, hlen2, if_true]
            rcases hv : l.getD 1 .other with sv | nv
            · have hsv : sv ≠ "tabs" := by
                intro hEq; exact hs (by rw [hv, hEq])
              simp [hsv]
            · exact absurd hv (hn nv)
            · simp
        · simp [effectiveIndent, effectiveUnit, parseConfig, hr, hi, hlen2]

theorem parseConfig_spec_witness :
    effectiveIndent ⟨some ⟨some [JVal.num 2, JVal.str "tabs"]⟩⟩ = 1 ∧
      effectiveUnit ⟨some ⟨some [JVal.num 2, JVal.str "tabs"]⟩⟩ = "tabs" ∧
      effectiveIndent ⟨some ⟨some [JVal.str "error", JVal.str "loose"]⟩⟩ = 4 ∧
      effectiveUnit ⟨some ⟨some [JVal.str "error", JVal.str "loose"]⟩⟩ = "spaces" := by
  have h1 := parseConfig_spec.1 ⟨some ⟨some [JVal.num 2, JVal.str "tabs"]⟩⟩
    ⟨some [JVal.num 2, JVal.str "tabs"]⟩ (JVal.num 2) rfl rfl
  have h2 := parseConfig_spec.2 ⟨some ⟨some [JVal.str "error", JVal.str "loose"]⟩⟩
    (by
      intro rs hrs l hl
      cases hrs
      cases hl
      exact Or.inr ⟨by decide, fun n => by simp⟩)
  exact ⟨h1.1, h1.2, h2.1, h2.2⟩

/-- C9: the node whose line and column serve as the closing brace — in the
braces-on-same-line exemption and in the closing-brace indent check — is
always the block node's LAST direct child, while the nested-element
iteration is bounded by the index of the first child whose text is `'}'`;
the two can denote different children, witnessed by `c9arena`. -/
theorem endBracket_is_lastChild :
    (∀ (a : Arena) (i : Nat) (h : (a.get i).children ≠ []),
      endBracket a i = (a.get i).children.getLast h ∧
        isBracketsOnSameLine a i = (startBracketLine a i == lineOf a (endBracket a i)) ∧
        endBracketColumn a i = columnOf a (endBracket a i) ∧
        endBracketLine a i = lineOf a (endBracket a i)) ∧
      ((c9arena.get 0).children ≠ [] ∧ endBracketIndex c9arena 0 = some 1 ∧
        (c9arena.get (endBracket c9arena 0)).text ≠ "\x7d" ∧
        (c9arena.get 0).children.getD 1 0 ≠ endBracket c9arena 0) := by
  constructor
  · intro a i h
    refine ⟨?_, rfl, rfl, rfl⟩
    unfold endBracket
    rw [List.getLast_eq_getElem]
    exact List.getD_eq_getElem _ _ (by have := List.length_pos.mpr h; omega)
  · exact ⟨by decide, by decide, by decide, by decide⟩

theorem endBracket_is_lastChild_witness :
    (c9arena.get 0).children ≠ [] ∧
      endBracket c9arena 0 = (c9arena.get 0).children.getLast (by decide) := by
  exact ⟨by decide, (endBracket_is_lastChild.1 c9arena 0 (by decide)).1⟩

lemma applyTokenIndent_apply (m : Nat → Option Int) (t : Token) (l : Nat) :
    applyTokenIndent m t l = if l = t.line then minUpd (m t.line) t.column else m l := by
  unfold applyTokenIndent minUpd
  cases h : m t.line with
  | none => by_cases hl : l = t.line <;> simp [hl, h]
  | some c =>
    by_cases hc : c > t.column <;> by_cases hl : l = t.line <;> simp [hl, hc, h]

lemma foldl_applyTokenIndent (ts : List Token) :
    ∀ (m : Nat → Option Int) (l : Nat),
      (ts.foldl applyTokenIndent m) l =
        ((ts.filter (fun t => t.line = l)).map Token.column).foldl minUpd (m l) := by
  induction ts with
  | nil => intro m l; rfl
  | cons t ts ih =>
    intro m l
    simp only [List.foldl_cons, List.filter_cons]
    by_cases hl : t.line = l
    · rw [if_pos (by simpa using hl)]
      simp only [List.map_cons, List.foldl_cons]
      rw [ih, applyTokenIndent_apply, if_pos hl.symm, hl]
    · rw [if_neg (by simpa using hl)]
      rw [ih, applyTokenIndent_apply, if_neg (fun h => hl h.symm)]

lemma foldl_minUpd_some (cols : List Int) :
    ∀ x : Int, cols.foldl minUpd (some x) = some (cols.foldl min x) := by
  induction cols with
  | nil => intro x; rfl
  | cons c cols ih =>
    intro x
    simp only [List.foldl_cons]
    have hstep : minUpd (some x) c = some (min x c) := by
      show (if x > c then some c else some x) = some (min x c)
      rcases le_or_lt x c with h | h
      · rw [if_neg (not_lt.mpr h), min_eq_left h]
      · rw [if_pos h, min_eq_right (le_of_lt h)]
    rw [hstep, ih]

lemma foldl_min_mem (cols : List Int) :
    ∀ x : Int, cols.foldl min x = x ∨ cols.foldl min x ∈ cols := by
  induction cols with
  | nil => intro x; exact Or.inl rfl
  | cons c cols ih =>
    intro x
    simp only [List.foldl_cons]
    rcases ih (min x c) with h | h
    · rcases min_choice x c with hm | hm
      · exact Or.inl (h.trans hm)
      · exact Or.inr (by rw [h, hm]; exact List.mem_cons_self c cols)
    · exact Or.inr (List.mem_cons_of_mem c h)

lemma foldl_min_le (cols : List Int) :
    ∀ x : Int, cols.foldl min x ≤ x ∧ ∀ y ∈ cols, cols.foldl min x ≤ y := by
  induction cols with
  | nil => intro x; exact ⟨le_refl x, by simp⟩
  | cons c cols ih =>
    intro x
    simp only [List.foldl_cons]
    refine ⟨(ih (min x c)).1.trans (min_le_left x c), ?_⟩
    intro y hy
    rcases List.mem_cons.mp hy with rfl | hy
    · exact (ih (min x y)).1.trans (min_le_right x y)
    · exact (ih (min x c)).2 y hy

lemma firstIndent_eq (ts : List Token) (l : Nat) :
    firstIndent ts l =
      (((sigTokens ts).filter (fun t => t.line = l)).map Token.column).foldl minUpd none := by
  unfold firstIndent
  rw [foldl_applyTokenIndent]

lemma baseLineCheck_eq_some (ind : Int) (lwe : List Nat) (m : Nat → Option Int)
    (l : Nat) (r : Report) :
    baseLineCheck ind lwe m l = some r ↔
      l ∉ lwe ∧ ∃ c, m l = some c ∧ c % ind ≠ 0 ∧
        r = ⟨l, c, "indent", "Indentation is incorrect"⟩ := by
  unfold baseLineCheck
  by_cases h : l ∈ lwe
  · simp [h]
  · cases hml : m l with
    | none => rw [if_neg h]; simp [h]
    | some c =>
      rw [if_neg h]
      dsimp only
      by_cases hc : c % ind ≠ 0
      · rw [if_pos hc]
        constructor
        · intro hr
          injection hr with hr
          exact ⟨h, c, rfl, hc, hr.symm⟩
        · rintro ⟨-, c1, hc1, -, rfl⟩
          injection hc1 with hc1
          rw [hc1]
      · rw [if_neg hc]
        constructor
        · intro hr; exact absurd hr (by simp)
        · rintro ⟨-, c1, hc1, hcc1, rfl⟩
          injection hc1 with hceq
          subst hceq
          exact absurd hcc1 hc

/-- C4: for every line whose recorded indent is the minimal column among the
line's significant-channel tokens (the first two conjuncts make the record
minimal), no base-multiplicity diagnostic is emitted when the line is in the
lines-with-error set, and otherwise the diagnostic `Indentation is
incorrect` at that line and column is emitted exactly when the column is
not evenly divisible by the configured indent unit. -/
theorem baseValidate_spec (ind : Int) (s : RState) (ts : List Token) (l : Nat) (c : Int)
    (hm : firstIndent ts l = some c) :
    ((∃ t ∈ sigTokens ts, t.line = l ∧ t.column = c) ∧
        (∀ t ∈ sigTokens ts, t.line = l → c ≤ t.column)) ∧
      (l ∈ getLinesWithError s →
        ∀ r ∈ baseValidate ind (getLinesWithError s) ts, r.line ≠ l) ∧
      (l ∉ getLinesWithError s →
        ((⟨l, c, "indent", "Indentation is incorrect"⟩ : Report) ∈
            baseValidate ind (getLinesWithError s) ts ↔ ¬ (ind ∣ c))) := by
  have hcols := firstIndent_eq ts l
  rw [hm] at hcols
  set cols := (((sigTokens ts).filter (fun t => t.line = l)).map Token.column) with hcolsDef
  have hmemCol : ∀ x : Int, x ∈ cols ↔ ∃ t ∈ sigTokens ts, t.line = l ∧ t.column = x := by
    intro x
    rw [hcolsDef]
    constructor
    · intro hx
      rcases List.mem_map.mp hx with ⟨t, ht, rfl⟩
      rcases List.mem_filter.mp ht with ⟨ht1, ht2⟩
      exact ⟨t, ht1, by simpa using ht2, rfl⟩
    · rintro ⟨t, ht, hl, rfl⟩
      exact List.mem_map.mpr ⟨t, List.mem_filter.mpr ⟨ht, by simpa using hl⟩, rfl⟩
  have hminFacts : c ∈ cols ∧ ∀ y ∈ cols, c ≤ y := by
    rcases hcd : cols with _ | ⟨c0, rest⟩
    · rw [hcd] at hcols; simp at hcols
    · rw [hcd] at hcols
      simp only [List.foldl_cons] at hcols
      have h1 : minUpd none c0 = some c0 := rfl
      rw [h1, foldl_minUpd_some] at hcols
      have hc : c = rest.foldl min c0 := by
        injection hcols.symm with h; exact h.symm
      constructor
      · rcases foldl_min_mem rest c0 with h | h
        · rw [hc, h]; exact List.mem_cons_self c0 rest
        · rw [hc]; exact List.mem_cons_of_mem c0 h
      · intro y hy
        rcases List.mem_cons.mp hy with rfl | hy
        · rw [hc]; exact (foldl_min_le rest y).1
        · rw [hc]; exact (foldl_min_le rest c0).2 y hy
  refine ⟨⟨(hmemCol c).mp hminFacts.1, ?_⟩, ?_, ?_⟩
  · intro t ht hl
    exact hminFacts.2 t.column ((hmemCol t.column).mpr ⟨t, ht, hl, rfl⟩)
  · intro hin r hr
    rcases List.mem_filterMap.mp hr with ⟨l1, hl1, hf⟩
    rcases (baseLineCheck_eq_some ind (getLinesWithError s) (firstIndent ts) l1 r).mp hf
      with ⟨hl1in, c1, _, _, rfl⟩
    intro hrl
    have hl1l : l1 = l := hrl
    exact hl1in (by rw [hl1l]; exact hin)
  · intro hout
    constructor
    · intro hr
      rcases List.mem_filterMap.mp hr with ⟨l1, hl1, hf⟩
      rcases (baseLineCheck_eq_some ind (getLinesWithError s) (firstIndent ts) l1 _).mp hf
        with ⟨hl1in, c1, hml1, hc1, hreq⟩
      have hll : l = l1 := congrArg Report.line hreq
      have hcc : c = c1 := congrArg Report.col hreq
      intro hdvd
      apply hc1
      rw [← hcc]
      exact Int.emod_eq_zero_of_dvd hdvd
    · intro hdvd
      have hlmem : l ∈ ((sigTokens ts).map Token.line).dedup := by
        rcases (hmemCol c).mp hminFacts.1 with ⟨t, ht, hl, _⟩
        exact List.mem_dedup.mpr (List.mem_map.mpr ⟨t, ht, hl⟩)
      refine List.mem_filterMap.mpr ⟨l, hlmem,
        (baseLineCheck_eq_some ind (getLinesWithError s) (firstIndent ts) l _).mpr
          ⟨hout, c, hm, fun h0 => hdvd (Int.dvd_of_emod_eq_zero h0), rfl⟩⟩

theorem baseValidate_spec_witness :
    firstIndent c4tokens 2 = some 5 ∧ (2 : Nat) ∉ getLinesWithError initState ∧
      ((⟨2, 5, "indent", "Indentation is incorrect"⟩ : Report) ∈
          baseValidate 4 (getLinesWithError initState) c4tokens ↔ ¬ ((4 : Int) ∣ 5)) := by
  refine ⟨by decide, by decide, ?_⟩
  exact (baseValidate_spec 4 initState c4tokens 2 5 (by decide)).2.2 (by decide)

lemma wfParents_lt {a : Arena} (h : wfParents a = true) {i p : Nat}
    (hi : i < a.size) (hp : (a.get i).parent = some p) : p < i := by
  have h2 := List.all_eq_true.mp h i (List.mem_range.mpr hi)
  rw [hp] at h2
  exact of_decide_eq_true h2

lemma wfChildren_lt {a : Arena} (h : wfChildren a = true) {i c : Nat}
    (hi : i < a.size) (hc : c ∈ (a.get i).children) : c < a.size := by
  have h2 := List.all_eq_true.mp h i (List.mem_range.mpr hi)
  exact of_decide_eq_true (List.all_eq_true.mp h2 c hc)

lemma wfSiblings_pairwise {a : Arena} (h : wfSiblings a = true) {i : Nat}
    (hi : i < a.size) :
    ((a.get i).children).Pairwise fun x y => (a.get x).line ≤ (a.get y).line :=
  of_decide_eq_true (List.all_eq_true.mp h i (List.mem_range.mpr hi))

lemma rootOfLineGo_spec {a : Arena} (hP : wfParents a = true) :
    ∀ fuel cur : Nat, cur < fuel → cur < a.size →
      ∃ r, rootOfLineGo a fuel cur = some r ∧ r ≤ cur ∧ r < a.size ∧
        (a.get r).line = (a.get cur).line := by
  intro fuel
  induction fuel with
  | zero => intro cur h _; exact absurd h (Nat.not_lt_zero cur)
  | succ n ih =>
    intro cur hcf hcs
    cases hp : (a.get cur).parent with
    | none => exact ⟨cur, by simp [rootOfLineGo, hp], le_refl _, hcs, rfl⟩
    | some p =>
      by_cases hcond : (a.get cur).line = (a.get p).line ∧
          (a.get p).ctorName ≠ "SourceUnitContext"
      · have hplt : p < cur := wfParents_lt hP hcs hp
        obtain ⟨r, hr, hle, hrs, hline⟩ := ih p (by omega) (by omega)
        exact ⟨r, by simp [rootOfLineGo, hp, hcond, hr], by omega, hrs,
          hline.trans hcond.1.symm⟩
      · exact ⟨cur, by simp [rootOfLineGo, hp, hcond], le_refl _, hcs, rfl⟩

lemma correctIndentOfGo_isSome {a : Arena} (hP : wfParents a = true)
    (corr : List (Nat × IndentError)) (ln : Nat) (colI : Int) :
    ∀ fuel cur : Nat, cur < fuel → cur < a.size →
      (correctIndentOfGo a corr ln colI fuel cur).isSome := by
  intro fuel
  induction fuel with
  | zero => intro cur h _; exact absurd h (Nat.not_lt_zero cur)
  | succ n ih =>
    intro cur hcf hcs
    cases hc : lookupCorr corr cur with
    | some e => simp [correctIndentOfGo, hc]
    | none =>
      cases hp : (a.get cur).parent with
      | none => simp [correctIndentOfGo, hc, hp]
      | some p =>
        by_cases hl : lineOf a p = ln
        · have hplt : p < cur := wfParents_lt hP hcs hp
          simp only [correctIndentOfGo, hc, hp, hl, if_true]
          exact ih p (by omega) (by omega)
        · simp [correctIndentOfGo, hc, hp, hl]

lemma scanPrevSibling_spec {a : Arena} (hP : wfParents a = true)
    (hC : wfChildren a = true) (hS : wfSiblings a = true)
    {root : Nat} (hr : root < a.size) :
    scanPrevSibling a root = root ∨
      (scanPrevSibling a root < a.size ∧
        (a.get (scanPrevSibling a root)).line ≤ (a.get root).line) := by
  unfold scanPrevSibling
  cases hp : (a.get root).parent with
  | none => exact Or.inl rfl
  | some par =>
    dsimp only
    have hpar : par < a.size := lt_trans (wfParents_lt hP hr hp) hr
    cases hri : ((a.get par).children).findIdx? (· == root) with
    | none => exact Or.inl rfl
    | some ri =>
      dsimp only
      cases hfind : (((a.get par).children).take ri).find?
          (fun c => stopLine a c == lineOf a root) with
      | none => exact Or.inl rfl
      | some c =>
        refine Or.inr ?_
        have hcmem_take := List.mem_of_find?_eq_some hfind
        have hcmem : c ∈ (a.get par).children := List.take_subset _ _ hcmem_take
        have hcsize : c < a.size := wfChildren_lt hC hpar hcmem
        obtain ⟨j, hj, hjc⟩ := List.getElem_of_mem hcmem_take
        rw [List.length_take] at hj
        have hjri : j < ri := (Nat.lt_min.mp hj).1
        have hjlen : j < ((a.get par).children).length := (Nat.lt_min.mp hj).2
        have hcsj : ((a.get par).children)[j] = c := by
          rw [← hjc]
          exact (List.getElem_take _).symm
        obtain ⟨hriLen, hpri, -⟩ := List.findIdx?_eq_some_iff_getElem.mp hri
        have hcsri : ((a.get par).children)[ri] = root := by simpa using hpri
        have hpw := wfSiblings_pairwise hS hpar
        have hle : (a.get c).line ≤ (a.get root).line := by
          have hrel := List.pairwise_iff_getElem.mp hpw j ri hjlen hriLen hjri
          rw [hcsj, hcsri] at hrel
          exact hrel
        exact ⟨hcsize, hle⟩

lemma firstNodeOfLineF_isSome {a : Arena} (hP : wfParents a = true)
    (hC : wfChildren a = true) (hS : wfSiblings a = true) :
    ∀ fuel i : Nat, i < a.size → (a.get i).line < fuel →
      (firstNodeOfLineF a fuel i).isSome := by
  intro fuel
  induction fuel with
  | zero => intro i _ h; exact absurd h (Nat.not_lt_zero _)
  | succ n ih =>
    intro i hi hline
    obtain ⟨r, hr, hle, hrs, hLineEq⟩ :=
      rootOfLineGo_spec hP (a.size + 1) i (by omega) hi
    simp only [firstNodeOfLineF, hr]
    rcases scanPrevSibling_spec hP hC hS hrs with hres | ⟨hress, hresle⟩
    · rw [hres]
      have hll : lineOf a i = lineOf a r := by
        unfold lineOf
        rw [hLineEq]
      simp [hll]
    · by_cases heq : lineOf a i = lineOf a (scanPrevSibling a r)
      · simp [heq]
      · simp only [ne_eq, heq, not_false_iff, if_true]
        apply ih _ hress
        have h1 : (a.get (scanPrevSibling a r)).line ≤ (a.get i).line := by
          rw [← hLineEq]
          exact hresle
        have h2 : (a.get (scanPrevSibling a r)).line ≠ (a.get i).line := by
          intro hx
          exact heq (by unfold lineOf; rw [hx])
        omega

/-- C8: on every well-formed finite tree the three walks of the resolver
terminate within their depth and line bounds: the walk-up of
`firstNodeOfLine`, the ancestor loop of `correctIndentOf`, and the outer
recursion of `firstNodeOfLine` each yield a value rather than exhausting
their fuel. -/
theorem walks_terminate (a : Arena) (corr : List (Nat × IndentError)) (i : Nat)
    (hP : wfParents a = true) (hC : wfChildren a = true) (hS : wfSiblings a = true)
    (hi : i < a.size) :
    (rootOfLineGo a (a.size + 1) i).isSome ∧
      (correctIndentOfGo a corr (lineOf a i) (columnOf a i) (a.size + 1) i).isSome ∧
      (firstNodeOfLineF a (lineOf a i + 1) i).isSome := by
  refine ⟨?_, ?_, ?_⟩
  · obtain ⟨r, hr, -⟩ := rootOfLineGo_spec hP (a.size + 1) i (by omega) hi
    simp [hr]
  · exact correctIndentOfGo_isSome hP corr _ _ (a.size + 1) i (by omega) hi
  · exact firstNodeOfLineF_isSome hP hC hS (lineOf a i + 1) i hi (Nat.lt_succ_self _)

lemma validateNode_corr (a : Arena) (u : String) (req : Int) (c : Nat) (s : RState) :
    (validateNode a u req c s).corr = s.corr ∨
      (validateNode a u req c s).corr = (c, ⟨columnOf a c, req⟩) :: s.corr := by
  unfold validateNode blockReport
  split
  · exact Or.inr rfl
  · exact Or.inl rfl

lemma foldl_validateNode_corr (a : Arena) (u : String) (req : Int) :
    ∀ (ts : List Nat) (s : RState),
      ∃ ws : List (Nat × IndentError),
        (ts.foldl (fun st c => validateNode a u req c st) s).corr = ws ++ s.corr ∧
        (∀ k ∈ ws.map Prod.fst, k ∈ ts) ∧
        (ts.Nodup → (ws.map Prod.fst).Nodup) := by
  intro ts
  induction ts with
  | nil => intro s; exact ⟨[], rfl, by simp, by simp⟩
  | cons c ts ih =>
    intro s
    simp only [List.foldl_cons]
    obtain ⟨ws, hw, hsub, hnd⟩ := ih (validateNode a u req c s)
    rcases validateNode_corr a u req c s with hc | hc
    · refine ⟨ws, by rw [hw, hc], fun k hk => List.mem_cons_of_mem c (hsub k hk),
        fun hnd2 => hnd (List.Nodup.of_cons hnd2)⟩
    · refine ⟨ws ++ [(c, ⟨columnOf a c, req⟩)], ?_, ?_, ?_⟩
      · rw [hw, hc, List.append_assoc]
        rfl
      · intro k hk
        rw [List.map_append, List.mem_append] at hk
        rcases hk with hk | hk
        · exact List.mem_cons_of_mem c (hsub k hk)
        · simp only [List.map_cons, List.map_nil, List.mem_singleton] at hk
          rw [hk]
          exact List.mem_cons_self c ts
      · intro hnd2
        rw [List.map_append, List.nodup_append]
        refine ⟨hnd (List.Nodup.of_cons hnd2), by simp, ?_⟩
        intro k hk hk2
        simp only [List.map_cons, List.map_nil, List.mem_singleton] at hk2
        rw [hk2] at hk
        exact (List.nodup_cons.mp hnd2).1 (hsub c hk)

lemma validateEndBracketIndent_corr (a : Arena) (u : String) (i : Nat) (s : RState) :
    (validateEndBracketIndent a u i s).corr = s.corr := by
  unfold validateEndBracketIndent blockReport
  dsimp only
  split <;> rfl

lemma nestedTargets_subset (a : Arena) (i : Nat) :
    ∀ c ∈ nestedTargets a i, c ∈ (a.get i).children := by
  intro c hc
  have hc2 := List.mem_of_mem_filter hc
  rcases List.mem_map.mp hc2 with ⟨j, hj, rfl⟩
  have hjr := List.mem_of_mem_filter hj
  have hjlen : j < (a.get i).children.length := List.mem_range.mp hjr
  rw [List.getD_eq_getElem _ _ hjlen]
  exact List.getElem_mem _

lemma nestedTargets_nodup (a : Arena) (i : Nat)
    (hnd : (a.get i).children.Nodup) : (nestedTargets a i).Nodup := by
  apply List.Nodup.filter
  apply List.Nodup.map_on
  · intro x hx y hy hxy
    have hxlen : x < (a.get i).children.length :=
      List.mem_range.mp (List.mem_of_mem_filter hx)
    have hylen : y < (a.get i).children.length :=
      List.mem_range.mp (List.mem_of_mem_filter hy)
    rw [List.getD_eq_getElem _ _ hxlen, List.getD_eq_getElem _ _ hylen] at hxy
    by_contra hne
    rcases Nat.lt_or_ge x y with hlt | hge
    · exact List.pairwise_iff_getElem.mp hnd x y hxlen hylen hlt hxy
    · have hlt2 : y < x := by omega
      exact List.pairwise_iff_getElem.mp hnd y x hylen hxlen hlt2 hxy.symm
  · exact List.Nodup.filter _ (List.nodup_range _)

lemma validateBlock_corr_decomp (a : Arena) (u : String) (ind : Int) (i : Nat) (s : RState) :
    ∃ ws, (validateBlock a u ind i s).corr = ws ++ s.corr ∧
      (∀ k ∈ ws.map Prod.fst, k ∈ (a.get i).children) ∧
      ((a.get i).children.Nodup → (ws.map Prod.fst).Nodup) := by
  unfold validateBlock
  split
  · exact ⟨[], rfl, by simp, by simp⟩
  · rw [validateEndBracketIndent_corr]
    unfold validateNested
    dsimp only
    obtain ⟨ws, hw, hsub, hnd⟩ :=
      foldl_validateNode_corr a u
        (correctIndentOf a s.corr (firstNodeOfLine a i) + ind) (nestedTargets a i) s
    exact ⟨ws, hw, fun k hk => nestedTargets_subset a i k (hsub k hk),
      fun h => hnd (nestedTargets_nodup a i h)⟩

lemma nslValidate_corr (a : Arena) (u : String) (ind : Int) (i idx : Nat) (s : RState) :
    (nslValidate a u ind i idx s).corr = s.corr ∨
      (idx < (a.get i).children.length ∧ ∃ e,
        (nslValidate a u ind i idx s).corr =
          ((a.get i).children.getD idx 0, e) :: s.corr) := by
  unfold nslValidate
  dsimp only
  split
  · exact Or.inl rfl
  · rename_i hlen
    split
    · exact Or.inr ⟨by omega, _, rfl⟩
    · exact Or.inl rfl

lemma getD_mem_of_lt {l : List Nat} {idx : Nat} (h : idx < l.length) : l.getD idx 0 ∈ l := by
  rw [List.getD_eq_getElem _ _ h]
  exact List.getElem_mem _

lemma nslValidate_corr_decomp (a : Arena) (u : String) (ind : Int) (i idx : Nat) (s : RState) :
    ∃ ws, (nslValidate a u ind i idx s).corr = ws ++ s.corr ∧
      (∀ k ∈ ws.map Prod.fst, k ∈ (a.get i).children) ∧
      (ws.map Prod.fst = [] ∨
        (idx < (a.get i).children.length ∧
          ws.map Prod.fst = [(a.get i).children.getD idx 0])) := by
  rcases nslValidate_corr a u ind i idx s with hc | ⟨hlt, e, hc⟩
  · exact ⟨[], by simpa using hc, by simp, Or.inl rfl⟩
  · refine ⟨[((a.get i).children.getD idx 0, e)], by simpa using hc, ?_, Or.inr ⟨hlt, rfl⟩⟩
    intro k hk
    simp only [List.map_cons, List.map_nil, List.mem_singleton] at hk
    rw [hk]
    exact getD_mem_of_lt hlt

lemma nslValidateMultiple_corr_decomp (a : Arena) (u : String) (ind : Int) (i : Nat)
    (s : RState) :
    ∃ ws, (nslValidateMultiple a u ind i [4, 6] s).corr = ws ++ s.corr ∧
      (∀ k ∈ ws.map Prod.fst, k ∈ (a.get i).children) ∧
      ((a.get i).children.Nodup → (ws.map Prod.fst).Nodup) := by
  have hm : nslValidateMultiple a u ind i [4, 6] s =
      nslValidate a u ind i 6 (nslValidate a u ind i 4 s) := rfl
  rw [hm]
  obtain ⟨w4, hw4, hsub4, hsh4⟩ := nslValidate_corr_decomp a u ind i 4 s
  obtain ⟨w6, hw6, hsub6, hsh6⟩ :=
    nslValidate_corr_decomp a u ind i 6 (nslValidate a u ind i 4 s)
  refine ⟨w6 ++ w4, by rw [hw6, hw4, List.append_assoc], ?_, ?_⟩
  · intro k hk
    rw [List.map_append, List.mem_append] at hk
    rcases hk with hk | hk
    · exact hsub6 k hk
    · exact hsub4 k hk
  · intro hnd
    rw [List.map_append, List.nodup_append]
    rcases hsh4 with h4 | ⟨hl4, h4⟩ <;> rcases hsh6 with h6 | ⟨hl6, h6⟩ <;>
      rw [h4, h6] <;> refine ⟨by simp, by simp, ?_⟩
    · simp
    · simp
    · simp
    · intro k hk hk2
      simp only [List.mem_singleton] at hk hk2
      rw [hk] at hk2
      have hne : (a.get i).children.getD 6 0 ≠ (a.get i).children.getD 4 0 := by
        rw [List.getD_eq_getElem _ _ hl6, List.getD_eq_getElem _ _ hl4]
        intro hEq
        exact List.pairwise_iff_getElem.mp hnd 4 6 hl4 hl6 (by omega) hEq.symm
      exact hne hk2

lemma enterSourceUnitH_corr_decomp (a : Arena) (u : String) (i : Nat) (s : RState) :
    ∃ ws, (enterSourceUnitH a u i s).corr = ws ++ s.corr ∧
      (∀ k ∈ ws.map Prod.fst, k ∈ (a.get i).children) ∧
      ((a.get i).children.Nodup → (ws.map Prod.fst).Nodup) := by
  unfold enterSourceUnitH
  obtain ⟨ws, hw, hsub, hnd⟩ :=
    foldl_validateNode_corr a u 0
      ((a.get i).children.filter (fun c => (a.get c).text ≠ "<EOF>")) s
  exact ⟨ws, hw, fun k hk => List.mem_of_mem_filter (hsub k hk),
    fun h => hnd (List.Nodup.filter _ h)⟩

/-- Every enter hook extends the correction list by writes whose target
nodes are among the entered node's direct children, pairwise distinct when
the children are. -/
lemma enterNode_corr_decomp (a : Arena) (u : String) (ind : Int) (n : Nat) (s : RState) :
    ∃ ws, (enterNode a u ind n s).corr = ws ++ s.corr ∧
      (∀ k ∈ ws.map Prod.fst, k ∈ (a.get n).children) ∧
      ((a.get n).children.Nodup → (ws.map Prod.fst).Nodup) := by
  unfold enterNode
  dsimp only
  split_ifs with h1 h2 h3 h4 h5 h6
  · exact validateBlock_corr_decomp a u ind n s
  · exact nslValidateMultiple_corr_decomp a u ind n s
  · obtain ⟨ws, hw, hsub, hsh⟩ := nslValidate_corr_decomp a u ind n 4 s
    refine ⟨ws, hw, hsub, fun _ => ?_⟩
    rcases hsh with h | ⟨-, h⟩ <;> rw [h] <;> simp
  · obtain ⟨ws, hw, hsub, hsh⟩ := nslValidate_corr_decomp a u ind n 1 s
    refine ⟨ws, hw, hsub, fun _ => ?_⟩
    rcases hsh with h | ⟨-, h⟩ <;> rw [h] <;> simp
  · obtain ⟨ws, hw, hsub, hsh⟩ :=
      nslValidate_corr_decomp a u ind n ((a.get n).children.length - 1) s
    refine ⟨ws, hw, hsub, fun _ => ?_⟩
    rcases hsh with h | ⟨-, h⟩ <;> rw [h] <;> simp
  · exact enterSourceUnitH_corr_decomp a u n s
  · exact ⟨[], rfl, by simp, by simp⟩

lemma lookupCorr_append_of_not_mem :
    ∀ (ws old : List (Nat × IndentError)) (j : Nat), j ∉ ws.map Prod.fst →
      lookupCorr (ws ++ old) j = lookupCorr old j := by
  intro ws
  induction ws with
  | nil => intro old j _; rfl
  | cons p ws ih =>
    intro old j hj
    simp only [List.map_cons, List.mem_cons, not_or] at hj
    unfold lookupCorr
    rw [List.cons_append, List.find?_cons_of_neg _ (by simp [Ne.symm hj.1])]
    exact ih old j hj.2

lemma lookupCorr_some_mem {l : List (Nat × IndentError)} {j : Nat} {e : IndentError}
    (h : lookupCorr l j = some e) : j ∈ l.map Prod.fst := by
  unfold lookupCorr at h
  cases hf : l.find? (fun p => p.1 == j) with
  | none => rw [hf] at h; exact absurd h (by simp)
  | some p =>
    have hp : p.1 = j := by simpa using List.find?_some hf
    exact hp ▸ List.mem_map.mpr ⟨p, List.mem_of_find?_eq_some hf, rfl⟩

lemma children_nodup {a : Arena} (hd : wfChildDisjoint a = true) {n : Nat}
    (hn : n < a.size) : (a.get n).children.Nodup :=
  (List.nodup_flatMap.mp (of_decide_eq_true hd)).1 n (List.mem_range.mpr hn)

lemma children_disjoint {a : Arena} (hd : wfChildDisjoint a = true) {m n : Nat}
    (hm : m < a.size) (hn : n < a.size) (hmn : m ≠ n) :
    ∀ k, k ∈ (a.get m).children → k ∉ (a.get n).children := by
  have hpw := List.pairwise_iff_getElem.mp
    (List.nodup_flatMap.mp (of_decide_eq_true hd)).2
  rcases Nat.lt_or_ge m n with hlt | hge
  · have hdis := hpw m n (by simpa using hm) (by simpa using hn) hlt
    rw [List.getElem_range, List.getElem_range] at hdis
    exact fun k hk hk2 => hdis hk hk2
  · have hlt2 : n < m := by omega
    have hdis := hpw n m (by simpa using hn) (by simpa using hm) hlt2
    rw [List.getElem_range, List.getElem_range] at hdis
    exact fun k hk hk2 => hdis hk2 hk

lemma enterNode_preserves (a : Arena) (u : String) (ind : Int) (n : Nat) (s : RState)
    (j : Nat) (hj : j ∉ (a.get n).children) :
    lookupCorr (enterNode a u ind n s).corr j = lookupCorr s.corr j := by
  obtain ⟨ws, hw, hsub, -⟩ := enterNode_corr_decomp a u ind n s
  rw [hw]
  exact lookupCorr_append_of_not_mem ws s.corr j (fun hk => hj (hsub j hk))

lemma foldl_enterNode_preserves (a : Arena) (u : String) (ind : Int) (j : Nat) :
    ∀ (o : List Nat) (s : RState), (∀ n ∈ o, j ∉ (a.get n).children) →
      lookupCorr (o.foldl (fun st n => enterNode a u ind n st) s).corr j =
        lookupCorr s.corr j := by
  intro o
  induction o with
  | nil => intro s _; rfl
  | cons n o ih =>
    intro s h
    simp only [List.foldl_cons]
    rw [ih (enterNode a u ind n s) (fun m hm => h m (List.mem_cons_of_mem n hm))]
    exact enterNode_preserves a u ind n s j (h n (List.mem_cons_self n o))

lemma runTraversal_corr_inv (a : Arena) (u : String) (ind : Int)
    (hdisj : wfChildDisjoint a = true) :
    ∀ order : List Nat, (∀ n ∈ order, n < a.size) → order.Nodup →
      ((runTraversal a u ind order).corr.map Prod.fst).Nodup ∧
      ∀ k ∈ (runTraversal a u ind order).corr.map Prod.fst,
        ∃ n, n ∈ order ∧ k ∈ (a.get n).children := by
  intro order
  induction order using List.reverseRecOn with
  | nil =>
    intro _ _
    exact ⟨by simp [runTraversal, initState], fun k hk => absurd hk (by simp [runTraversal, initState])⟩
  | append_singleton o n ih =>
    intro hb hnd
    have hbo : ∀ m ∈ o, m < a.size := fun m hm => hb m (List.mem_append_left _ hm)
    have hno : n < a.size := hb n (List.mem_append_right _ (List.mem_singleton.mpr rfl))
    have hndo : o.Nodup := (List.nodup_append.mp hnd).1
    obtain ⟨ihnd, ihorig⟩ := ih hbo hndo
    have hrun : runTraversal a u ind (o ++ [n]) =
        enterNode a u ind n (runTraversal a u ind o) := by
      unfold runTraversal
      rw [List.foldl_append]
      rfl
    obtain ⟨ws, hw, hsub, hwnd⟩ := enterNode_corr_decomp a u ind n (runTraversal a u ind o)
    have hchn : (a.get n).children.Nodup := children_nodup hdisj hno
    constructor
    · rw [hrun, hw, List.map_append, List.nodup_append]
      refine ⟨hwnd hchn, ihnd, ?_⟩
      intro k hk hk2
      obtain ⟨m, hm, hkm⟩ := ihorig k hk2
      have hmn : m ≠ n := by
        intro hEq
        exact (List.disjoint_of_nodup_append hnd) hm (List.mem_singleton.mpr hEq)
      exact children_disjoint hdisj (hbo m hm) hno hmn k hkm (hsub k hk)
    · intro k hk
      rw [hrun, hw, List.map_append] at hk
      rcases List.mem_append.mp hk with hk | hk
      · exact ⟨n, List.mem_append_right _ (List.mem_singleton.mpr rfl), hsub k hk⟩
      · obtain ⟨m, hm, hkm⟩ := ihorig k hk
        exact ⟨m, List.mem_append_left _ hm, hkm⟩

/-- C7: within one checking traversal (each node entered at most once, links
well formed), a correction attached to a node at any point of the traversal
survives unchanged to the end — no later step overwrites it — and, more
strongly, the final correction list binds every node at most once. -/
theorem corrections_write_once (a : Arena) (u : String) (ind : Int)
    (o₁ o₂ : List Nat) (hb : ∀ n ∈ o₁ ++ o₂, n < a.size)
    (hnd : (o₁ ++ o₂).Nodup) (hdisj : wfChildDisjoint a = true)
    (j : Nat) (e : IndentError)
    (h : lookupCorr (runTraversal a u ind o₁).corr j = some e) :
    lookupCorr (runTraversal a u ind (o₁ ++ o₂)).corr j = some e ∧
      ((runTraversal a u ind (o₁ ++ o₂)).corr.map Prod.fst).Nodup := by
  have hb1 : ∀ n ∈ o₁, n < a.size := fun n hn => hb n (List.mem_append_left _ hn)
  have hnd1 : o₁.Nodup := (List.nodup_append.mp hnd).1
  obtain ⟨-, horig⟩ := runTraversal_corr_inv a u ind hdisj o₁ hb1 hnd1
  obtain ⟨n1, hn1, hjn1⟩ := horig j (lookupCorr_some_mem h)
  have hstep : ∀ n ∈ o₂, j ∉ (a.get n).children := by
    intro n hn
    have hne : n1 ≠ n := by
      intro hEq
      exact (List.disjoint_of_nodup_append hnd) hn1 (hEq ▸ hn)
    exact children_disjoint hdisj (hb1 n1 hn1) (hb n (List.mem_append_right _ hn)) hne j hjn1
  constructor
  · have hsplit : runTraversal a u ind (o₁ ++ o₂) =
        o₂.foldl (fun st n => enterNode a u ind n st) (runTraversal a u ind o₁) := by
      unfold runTraversal
      rw [List.foldl_append]
    rw [hsplit, foldl_enterNode_preserves a u ind j o₂ (runTraversal a u ind o₁) hstep]
    exact h
  · exact (runTraversal_corr_inv a u ind hdisj (o₁ ++ o₂) hb hnd).1

theorem corrections_write_once_witness :
    (∀ n ∈ ([1] ++ [5] : List Nat), n < egArena.size) ∧
      (([1] ++ [5] : List Nat)).Nodup ∧ wfChildDisjoint egArena = true ∧
      lookupCorr (runTraversal egArena "spaces" 4 [1]).corr 3 = some ⟨6, 4⟩ ∧
      lookupCorr (runTraversal egArena "spaces" 4 ([1] ++ [5])).corr 3 = some ⟨6, 4⟩ := by
  refine ⟨by decide, by decide, by decide, by decide, ?_⟩
  exact (corrections_write_once egArena "spaces" 4 [1] [5] (by decide) (by decide)
    (by decide) 3 ⟨6, 4⟩ (by decide)).1

theorem walks_terminate_witness :
    wfParents egArena = true ∧ wfChildren egArena = true ∧ wfSiblings egArena = true ∧
      3 < egArena.size ∧ (firstNodeOfLineF egArena (lineOf egArena 3 + 1) 3).isSome := by
  refine ⟨by decide, by decide, by decide, by decide, ?_⟩
  exact (walks_terminate egArena [] 3 (by decide) (by decide) (by decide) (by decide)).2.2
